import Mathlib

/-!
Verification of the non-parametric permutation test implemented in
`modelA.py` (functions `cluster_integral` and `ttest_nonparametric`).

The Python code works on rectangular `numpy` arrays of floats; the embedding
models a 2-D array as a `List (List ℝ)` of rows, and each `numpy` operation
used by the code is translated to an explicit Lean definition:

* `x.T`                          → `transposeT`
* `x.mean(axis=0)` per column    → `npMean`
* `x.std(ddof=1, axis=0)`        → `npStd1`
* `itertools.product([0,1], n)`  → `labelsProd`
* `-2*labels + 1`                → `toSigns`
* `(y.copy().T*signs).T`         → `signPermute`
* `t.max()` / builtin `max`      → `npMax`
* `np.percentile` (linear)       → `npPercentile`
* `np.trapz` (unit spacing)      → `npTrapz`
* `ndimage.label` on a 1-D mask  → `boolRuns` (maximal runs of `true`, left to right)
* array subtraction with
  broadcasting (`x.T - mu`)      → `broadcastSub`

The `ttest_nonparametric` pipeline is split into named stages (`yOf`, `t0Of`,
`TOf`, `tCritOf`, `MOf`, `clusters0Of`, `m0Of`, `pOf`) corresponding to the
labelled blocks of the source, and reassembled in `ttest_nonparametric`.
The only statement of the source that can raise is the broadcast subtraction
`y = x.T - mu` (an untyped `numpy` `ValueError` on incompatible shapes),
modelled by the `Except` result of `ttest_nonparametric`.
-/

namespace ProbFEApy

/-- Transpose of a rectangular matrix stored as a list of rows, modelling
`numpy`'s `.T` on a 2-D array: entry `(i, j)` of the result is entry `(j, i)`
of the input. -/
def transposeT (x : List (List ℝ)) : List (List ℝ) :=
  (List.range (x.headD []).length).map (fun i => x.map (fun r => r.getD i 0))

/-- Elementwise subtraction of a 1-D array from each row of a 2-D array with
`numpy` broadcasting: equal lengths subtract elementwise, a length-1 operand
is stretched to the other operand's length. -/
noncomputable def broadcastSub (row : List ℝ) (mu : List ℝ) : List ℝ :=
  if row.length = mu.length then List.zipWith (fun a b => a - b) row mu
  else if mu.length = 1 then row.map (fun v => v - mu.headD 0)
  else mu.map (fun v => row.headD 0 - v)

/-- Arithmetic mean of a 1-D array, modelling `numpy`'s `mean`. -/
noncomputable def npMean (l : List ℝ) : ℝ := l.sum / (l.length : ℝ)

/-- Sample standard deviation with `ddof=1`, modelling `numpy`'s
`std(ddof=1)`: square root of the sum of squared deviations from the mean
divided by `length - 1`. -/
noncomputable def npStd1 (l : List ℝ) : ℝ :=
  Real.sqrt ((l.map (fun v => (v - npMean l) ^ 2)).sum / ((l.length : ℝ) - 1))

/-- Maximum element of a 1-D array, modelling `numpy`'s `max` (and Python's
builtin `max`) on a non-empty array; returns `0` on the empty list, which the
source never produces. -/
noncomputable def npMax : List ℝ → ℝ
  | [] => 0
  | a :: l => l.foldl max a

/-- Trapezoidal numerical integral with unit spacing, modelling `np.trapz`:
the sum of `(l[k] + l[k+1]) / 2` over consecutive pairs. -/
noncomputable def npTrapz (l : List ℝ) : ℝ :=
  (List.zipWith (fun a b => (a + b) / 2) l l.tail).sum

/-- Linear-interpolation percentile, modelling `np.percentile(a, q)`: with the
array sorted ascending, `h = q/100 * (len - 1)`, the result interpolates
between the entries at positions `floor h` and `floor h + 1` (clipped). -/
noncomputable def npPercentile (a : List ℝ) (q : ℝ) : ℝ :=
  let s := List.insertionSort (fun u v => u ≤ v) a
  let h : ℝ := q / 100 * ((a.length : ℝ) - 1)
  s.getD ⌊h⌋₊ 0 + (h - ⌊h⌋₊) * (s.getD (min (⌊h⌋₊ + 1) (a.length - 1)) 0 - s.getD ⌊h⌋₊ 0)

/-- All tuples of `{0, 1}` of length `n` in the order produced by
`itertools.product([0,1], repeat=n)`: lexicographic, first component varying
slowest, the all-zero tuple first. -/
def labelsProd : ℕ → List (List ℕ)
  | 0 => [[]]
  | n + 1 => (labelsProd n).map (fun l => 0 :: l) ++ (labelsProd n).map (fun l => 1 :: l)

/-- `signs = -2*np.array(labels) + 1`: maps label `0` to `+1` and label `1`
to `-1`. -/
noncomputable def toSigns (labels : List ℕ) : List ℝ :=
  labels.map (fun l => -2 * (l : ℝ) + 1)

/-- `yy = (y.copy().T * signs).T`: multiplies each column of the transposed
observation matrix elementwise by the sign vector (one sign per observation
row of `y`) and transposes back. -/
noncomputable def signPermute (y : List (List ℝ)) (signs : List ℝ) : List (List ℝ) :=
  transposeT ((transposeT y).map (fun row => List.zipWith (fun a b => a * b) row signs))

/-- The test statistic field `t = y.mean(axis=0) / y.std(ddof=1, axis=0) * sqrt(n)`
computed per domain position (column of `y`), where `n = y.shape[0]` is the
number of observation rows. -/
noncomputable def tstatField (y : List (List ℝ)) : List ℝ :=
  (transposeT y).map (fun col => npMean col / npStd1 col * Real.sqrt (y.length : ℝ))

/-- Helper for `boolRuns`: scans the boolean field, `k` is the index of the
first element of the remaining list; consecutive `true` positions are merged
into one run. -/
def boolRunsGo : ℕ → List Bool → List (List ℕ)
  | _, [] => []
  | k, false :: rest => boolRunsGo (k + 1) rest
  | k, true :: rest =>
    match boolRunsGo (k + 1) rest with
    | [] => [[k]]
    | r :: rs => if r.headD 0 = k + 1 then (k :: r) :: rs else [k] :: r :: rs

/-- The maximal runs of `true` in a 1-D boolean field, as lists of indices in
left-to-right order: the connected components produced by `ndimage.label`
(component `i+1` of the source's label array is entry `i` of this list). -/
def boolRuns (b : List Bool) : List (List ℕ) := boolRunsGo 0 b

/-- `cluster_integral(z, thresh, i)` from the source: on a single-position
cluster it returns `z[i] - thresh`; otherwise the trapezoidal integral
`np.trapz(z[i] - thresh)`.  The boolean mask argument `i` is represented by
the list of selected indices (the run produced by `boolRuns`). -/
noncomputable def cluster_integral (z : List ℝ) (thresh : ℝ) (run : List ℕ) : ℝ :=
  let zi := run.map (fun j => z.getD j 0)
  if zi.length = 1 then zi.headD 0 - thresh
  else npTrapz (zi.map (fun v => v - thresh))

/-- The supra-threshold clusters of a statistic field: maximal runs of
positions where `np.abs(t) > thresh`, as produced by
`ndimage.label(np.abs(t) > tCrit)`. -/
noncomputable def suprathresholdRuns (t : List ℝ) (thresh : ℝ) : List (List ℕ) :=
  boolRuns (t.map (fun v => decide (|v| > thresh)))

/-- The maximum cluster integral recorded into the secondary distribution for
one permuted field (source lines: `m = 0; if nC > 0: m = max([...])`). -/
noncomputable def maxClusterIntegral (t : List ℝ) (thresh : ℝ) : ℝ :=
  if suprathresholdRuns t thresh = [] then 0
  else npMax ((suprathresholdRuns t thresh).map
    (fun r => cluster_integral (t.map (fun v => |v|)) thresh r))

/-- `y = x.T - mu`: the datum-corrected observations (one row per
observation). -/
noncomputable def yOf (x : List (List ℝ)) (mu : List ℝ) : List (List ℝ) :=
  (transposeT x).map (fun row => broadcastSub row mu)

/-- `t0`: the original test statistic field. -/
noncomputable def t0Of (x : List (List ℝ)) (mu : List ℝ) : List ℝ :=
  tstatField (yOf x mu)

/-- The primary permutation distribution `T`: for every relabeling, the value
`t.max()` of the sign-permuted statistic field. -/
noncomputable def TOf (x : List (List ℝ)) (mu : List ℝ) : List ℝ :=
  (labelsProd (yOf x mu).length).map
    (fun labels => npMax (tstatField (signPermute (yOf x mu) (toSigns labels))))

/-- Primary distribution as described by the specification text: for every
relabeling, the maximum absolute value of the sign-permuted statistic field
across all domain positions.  Written from the specification's words, to be
compared with `TOf` (which is translated from the source). -/
noncomputable def TOfSpecAbs (x : List (List ℝ)) (mu : List ℝ) : List ℝ :=
  (labelsProd (yOf x mu).length).map
    (fun labels => npMax ((tstatField (signPermute (yOf x mu) (toSigns labels))).map
      (fun v => |v|)))

/-- `tCrit = np.percentile(T, 100*(1 - alpha))`: the critical threshold. -/
noncomputable def tCritOf (x : List (List ℝ)) (mu : List ℝ) (alpha : ℝ) : ℝ :=
  npPercentile (TOf x mu) (100 * (1 - alpha))

/-- The secondary permutation distribution `M`: for every relabeling, the
maximum cluster integral of the sign-permuted statistic field at threshold
`tCrit` (`0` when no cluster exists). -/
noncomputable def MOf (x : List (List ℝ)) (mu : List ℝ) (alpha : ℝ) : List ℝ :=
  (labelsProd (yOf x mu).length).map
    (fun labels => maxClusterIntegral (tstatField (signPermute (yOf x mu) (toSigns labels)))
      (tCritOf x mu alpha))

/-- The supra-threshold clusters of the original statistic field `t0`. -/
noncomputable def clusters0Of (x : List (List ℝ)) (mu : List ℝ) (alpha : ℝ) : List (List ℕ) :=
  suprathresholdRuns (t0Of x mu) (tCritOf x mu alpha)

/-- `m0`: the cluster integrals of the original statistic field. -/
noncomputable def m0Of (x : List (List ℝ)) (mu : List ℝ) (alpha : ℝ) : List ℝ :=
  (clusters0Of x mu alpha).map
    (fun r => cluster_integral ((t0Of x mu).map (fun v => |v|)) (tCritOf x mu alpha) r)

/-- The cluster p-values: `p = [(M > m).mean() for m in m0]`, each floored at
`1.0 / M.size`; `none` models the `np.nan` returned when no cluster survives
the threshold. -/
noncomputable def pOf (x : List (List ℝ)) (mu : List ℝ) (alpha : ℝ) : Option (List ℝ) :=
  if clusters0Of x mu alpha = [] then none
  else some ((m0Of x mu alpha).map (fun m =>
    max (((MOf x mu alpha).countP (fun v => decide (m < v)) : ℝ) / ((MOf x mu alpha).length : ℝ))
      (1 / ((MOf x mu alpha).length : ℝ))))

/-- The one error the source can raise inside `ttest_nonparametric`: the
untyped `numpy` `ValueError` from the broadcast subtraction `y = x.T - mu`
when the shapes are incompatible. -/
inductive NpError
  | broadcastError
deriving DecidableEq

/-- The triple returned by `ttest_nonparametric`. -/
structure TTestResult where
  t0 : List ℝ
  tCrit : ℝ
  p : Option (List ℝ)

/-- The whole `ttest_nonparametric(x, mu, alpha)` pipeline.  Here `x` is the
source's `(m, n)` array (one row per domain position, one column per
observation) and `mu` is the length-`m` datum.  The rows of `x.T` have length
`m = x.length`, so the broadcast subtraction `y = x.T - mu` fails (raises)
exactly when `x.length` and `mu.length` are incompatible under `numpy`
broadcasting; on arrays with at least one position and one observation every
later statement of the source is total, so the embedding returns the result
triple directly after the guard. -/
noncomputable def ttest_nonparametric (x : List (List ℝ)) (mu : List ℝ) (alpha : ℝ) :
    Except NpError TTestResult :=
  if x.length = mu.length ∨ mu.length = 1 ∨ x.length = 1 then
    Except.ok ⟨t0Of x mu, tCritOf x mu alpha, pOf x mu alpha⟩
  else Except.error NpError.broadcastError

/-! ### Structural lemmas about the embedding -/

theorem transposeT_length (x : List (List ℝ)) :
    (transposeT x).length = (x.headD []).length := by
  simp [transposeT]

theorem transposeT_getElem (x : List (List ℝ)) (i : ℕ)
    (ht : i < (transposeT x).length) :
    (transposeT x)[i] = x.map (fun r => r.getD i 0) := by
  simp [transposeT]

theorem length_labelsProd (n : ℕ) : (labelsProd n).length = 2 ^ n := by
  induction n with
  | zero => simp [labelsProd]
  | succ n ih => simp [labelsProd, ih]; ring

theorem labelsProd_ne_nil (n : ℕ) : labelsProd n ≠ [] :=
  List.ne_nil_of_length_pos (by rw [length_labelsProd]; positivity)

theorem length_of_mem_labelsProd {n : ℕ} {L : List ℕ} (h : L ∈ labelsProd n) :
    L.length = n := by
  induction n generalizing L with
  | zero => simp [labelsProd] at h; simp [h]
  | succ n ih =>
    simp only [labelsProd, List.mem_append, List.mem_map] at h
    rcases h with ⟨l, hl, rfl⟩ | ⟨l, hl, rfl⟩ <;> simp [ih hl]

theorem mem_of_mem_labelsProd {n : ℕ} {L : List ℕ} (h : L ∈ labelsProd n) :
    ∀ c ∈ L, c = 0 ∨ c = 1 := by
  induction n generalizing L with
  | zero => simp [labelsProd] at h; simp [h]
  | succ n ih =>
    simp only [labelsProd, List.mem_append, List.mem_map] at h
    rcases h with ⟨l, hl, rfl⟩ | ⟨l, hl, rfl⟩ <;>
      · intro c hc
        rcases List.mem_cons.mp hc with rfl | hc
        · simp
        · exact ih hl c hc

theorem replicate_mem_labelsProd (n : ℕ) : List.replicate n 0 ∈ labelsProd n := by
  induction n with
  | zero => simp [labelsProd]
  | succ n ih =>
    simp only [labelsProd, List.mem_append, List.mem_map, List.replicate_succ]
    exact Or.inl ⟨List.replicate n 0, ih, rfl⟩

theorem toSigns_replicate_zero (n : ℕ) :
    toSigns (List.replicate n 0) = List.replicate n 1 := by
  induction n with
  | zero => simp [toSigns]
  | succ n ih => simpa [toSigns, List.replicate_succ] using ih

theorem toSigns_mem {L : List ℕ} (h : ∀ c ∈ L, c = 0 ∨ c = 1) :
    ∀ s ∈ toSigns L, s = 1 ∨ s = -1 := by
  induction L with
  | nil => intro s hs; simp [toSigns] at hs
  | cons c t ih =>
    intro s hs
    have hs2 : s ∈ (-2 * (c : ℝ) + 1) :: toSigns t := by simpa [toSigns] using hs
    rcases List.mem_cons.mp hs2 with rfl | hs3
    · rcases h c (by simp) with h0 | h1
      · left; rw [h0]; norm_num
      · right; rw [h1]; norm_num
    · exact ih (fun d hd => h d (by simp [hd])) s hs3

theorem le_foldl_max (l : List ℝ) (a : ℝ) : a ≤ l.foldl max a := by
  induction l generalizing a with
  | nil => simp
  | cons b t ih => exact le_trans (le_max_left a b) (ih (max a b))

theorem mem_le_foldl_max (l : List ℝ) (a : ℝ) : ∀ v ∈ l, v ≤ l.foldl max a := by
  induction l generalizing a with
  | nil => simp
  | cons b t ih =>
    intro v hv
    rcases List.mem_cons.mp hv with rfl | hv
    · exact le_trans (le_max_right a v) (le_foldl_max t (max a v))
    · exact ih (max a b) v hv

theorem foldl_max_mem (l : List ℝ) (a : ℝ) : l.foldl max a = a ∨ l.foldl max a ∈ l := by
  induction l generalizing a with
  | nil => simp
  | cons b t ih =>
    have hstep : List.foldl max a (b :: t) = List.foldl max (max a b) t := rfl
    rcases ih (max a b) with h | h
    · rcases max_choice a b with hm | hm
      · left
        rw [hstep, h, hm]
      · right
        rw [hstep, h, hm]
        exact List.mem_cons_self b t
    · right
      rw [hstep]
      exact List.mem_cons_of_mem b h

theorem npMax_mem {l : List ℝ} (h : l ≠ []) : npMax l ∈ l := by
  cases l with
  | nil => exact absurd rfl h
  | cons a t =>
    rcases foldl_max_mem t a with h1 | h1
    · simp [npMax, h1]
    · exact List.mem_cons_of_mem a (by simpa [npMax] using h1)

theorem le_npMax {l : List ℝ} {v : ℝ} (h : v ∈ l) : v ≤ npMax l := by
  cases l with
  | nil => simp at h
  | cons a t =>
    rcases List.mem_cons.mp h with rfl | hv
    · simpa [npMax] using le_foldl_max t v
    · simpa [npMax] using mem_le_foldl_max t a v hv

theorem boolRunsGo_sound (b : List Bool) :
    ∀ (k : ℕ) (r : List ℕ), r ∈ boolRunsGo k b →
      r ≠ [] ∧ ∀ j ∈ r, ∃ i, i < b.length ∧ j = k + i ∧ b.getD i false = true := by
  induction b with
  | nil => intro k r hr; simp [boolRunsGo] at hr
  | cons v rest ih =>
    intro k r hr
    cases v with
    | false =>
      simp only [boolRunsGo] at hr
      obtain ⟨hne, hmem⟩ := ih (k + 1) r hr
      refine ⟨hne, fun j hj => ?_⟩
      obtain ⟨i, hi, rfl, hget⟩ := hmem j hj
      exact ⟨i + 1, by simpa using hi, by omega, by simpa using hget⟩
    | true =>
      cases hrec : boolRunsGo (k + 1) rest with
      | nil =>
        have hr2 : r ∈ [[k]] := by
          have heq : boolRunsGo k (true :: rest) = [[k]] := by
            simp [boolRunsGo, hrec]
          rw [heq] at hr
          exact hr
        rcases List.mem_singleton.mp hr2 with rfl
        refine ⟨by simp, fun j hj => ?_⟩
        rcases List.mem_singleton.mp hj with rfl
        exact ⟨0, by simp, by omega, by simp⟩
      | cons r0 rs =>
        have hmem0 : ∀ j ∈ r0, ∃ i, i < rest.length ∧ j = (k + 1) + i ∧
            rest.getD i false = true := (ih (k + 1) r0 (by simp [hrec])).2
        have hne0 : r0 ≠ [] := (ih (k + 1) r0 (by simp [hrec])).1
        have hmemRs : ∀ rr ∈ rs, rr ≠ [] ∧ ∀ j ∈ rr, ∃ i, i < rest.length ∧
            j = (k + 1) + i ∧ rest.getD i false = true :=
          fun rr hrr => ih (k + 1) rr (by simp [hrec, hrr])
      -- lift a fact about `rest` at index `i` to `true :: rest` at index `i + 1`
        have lift : ∀ j, (∃ i, i < rest.length ∧ j = (k + 1) + i ∧ rest.getD i false = true) →
            ∃ i, i < (true :: rest).length ∧ j = k + i ∧ (true :: rest).getD i false = true := by
          rintro j ⟨i, hi, rfl, hget⟩
          exact ⟨i + 1, by simpa using hi, by omega, by simpa using hget⟩
        by_cases hhead : r0.head?.getD 0 = k + 1
        · have hr2 : r ∈ (k :: r0) :: rs := by
            have heq : boolRunsGo k (true :: rest) = (k :: r0) :: rs := by
              simp [boolRunsGo, hrec, hhead]
            rw [heq] at hr
            exact hr
          rcases List.mem_cons.mp hr2 with rfl | hrs
          · refine ⟨by simp, fun j hj => ?_⟩
            rcases List.mem_cons.mp hj with rfl | hj0
            · exact ⟨0, by simp, by omega, by simp⟩
            · exact lift j (hmem0 j hj0)
          · obtain ⟨hne, hmem⟩ := hmemRs _ hrs
            exact ⟨hne, fun j hj => lift j (hmem j hj)⟩
        · have hr2 : r ∈ [k] :: r0 :: rs := by
            have heq : boolRunsGo k (true :: rest) = [k] :: r0 :: rs := by
              simp [boolRunsGo, hrec, hhead]
            rw [heq] at hr
            exact hr
          rcases List.mem_cons.mp hr2 with rfl | hr3
          · refine ⟨by simp, fun j hj => ?_⟩
            rcases List.mem_singleton.mp hj with rfl
            exact ⟨0, by simp, by omega, by simp⟩
          · rcases List.mem_cons.mp hr3 with rfl | hrs
            · exact ⟨hne0, fun j hj => lift j (hmem0 j hj)⟩
            · obtain ⟨hne, hmem⟩ := hmemRs _ hrs
              exact ⟨hne, fun j hj => lift j (hmem j hj)⟩

theorem boolRunsGo_eq_nil (b : List Bool) (h : ∀ v ∈ b, v = false) :
    ∀ k, boolRunsGo k b = [] := by
  induction b with
  | nil => intro k; simp [boolRunsGo]
  | cons v rest ih =>
    intro k
    have hv : v = false := h v (by simp)
    subst hv
    simp only [boolRunsGo]
    exact ih (fun w hw => h w (by simp [hw])) (k + 1)

theorem boolRuns_sound (b : List Bool) (r : List ℕ) (hr : r ∈ boolRuns b) :
    r ≠ [] ∧ ∀ j ∈ r, j < b.length ∧ b.getD j false = true := by
  obtain ⟨hne, hmem⟩ := boolRunsGo_sound b 0 r hr
  refine ⟨hne, fun j hj => ?_⟩
  obtain ⟨i, hi, rfl, hget⟩ := hmem j hj
  rw [Nat.zero_add]
  exact ⟨hi, hget⟩

theorem list_sum_eq_range_sum (l : List ℝ) :
    l.sum = ∑ k in Finset.range l.length, l.getD k 0 := by
  induction l with
  | nil => simp
  | cons a t ih =>
    rw [List.sum_cons, ih, List.length_cons, Finset.sum_range_succ']
    simp [List.getD_cons_succ, List.getD_cons_zero]
    ring

theorem npTrapz_eq_sum (l : List ℝ) :
    npTrapz l = ∑ k in Finset.range (l.length - 1), (l.getD k 0 + l.getD (k + 1) 0) / 2 := by
  have hlen : (List.zipWith (fun a b => (a + b) / 2) l l.tail).length = l.length - 1 := by
    simp [List.length_zipWith]
  rw [npTrapz, list_sum_eq_range_sum, hlen]
  apply Finset.sum_congr rfl
  intro k hk
  have hk1 : k < l.length - 1 := Finset.mem_range.mp hk
  have hkl : k < l.length := by omega
  have hk2 : k + 1 < l.length := by omega
  have hkz : k < (List.zipWith (fun a b => (a + b) / 2) l l.tail).length := by omega
  rw [List.getD_eq_getElem _ _ hkz, List.getElem_zipWith,
    List.getD_eq_getElem _ _ hkl, List.getD_eq_getElem _ _ hk2, List.getElem_tail]

theorem npTrapz_pos {l : List ℝ} (hlen : 2 ≤ l.length) (hpos : ∀ v ∈ l, 0 < v) :
    0 < npTrapz l := by
  rw [npTrapz]
  apply List.sum_pos
  · intro v hv
    obtain ⟨i, hi, hv⟩ := List.mem_iff_getElem.mp hv
    rw [List.getElem_zipWith] at hv
    have hi2 : i < l.length := by
      have := hi
      rw [List.length_zipWith] at this
      omega
    have hi3 : i + 1 < l.length := by
      have := hi
      rw [List.length_zipWith, List.length_tail] at this
      omega
    rw [List.getElem_tail] at hv
    have h1 := hpos _ (List.getElem_mem hi2)
    have h2 := hpos _ (List.getElem_mem hi3)
    rw [← hv]
    linarith
  · intro h
    have : (List.zipWith (fun a b => (a + b) / 2) l l.tail).length = 0 := by rw [h]; rfl
    rw [List.length_zipWith, List.length_tail] at this
    omega

theorem mem_map_ne_nil {α β : Type} {l : List α} {f : α → β} (h : l ≠ []) :
    l.map f ≠ [] := by
  intro hc
  exact h (List.map_eq_nil_iff.mp hc)

theorem cluster_integral_pos (z : List ℝ) (thresh : ℝ) (run : List ℕ)
    (hne : run ≠ []) (h : ∀ j ∈ run, thresh < z.getD j 0) :
    0 < cluster_integral z thresh run := by
  rw [cluster_integral]
  have hmem : ∀ v ∈ run.map (fun j => z.getD j 0), thresh < v := by
    intro v hv
    obtain ⟨j, hj, rfl⟩ := List.mem_map.mp hv
    exact h j hj
  have hzine : run.map (fun j => z.getD j 0) ≠ [] := mem_map_ne_nil hne
  by_cases hlen : (run.map (fun j => z.getD j 0)).length = 1
  · rw [if_pos hlen]
    have hh : (run.map (fun j => z.getD j 0)).headD 0 ∈ run.map (fun j => z.getD j 0) := by
      cases hzi : run.map (fun j => z.getD j 0) with
      | nil => exact absurd hzi hzine
      | cons a t => simp
    have := hmem _ hh
    linarith
  · rw [if_neg hlen]
    apply npTrapz_pos
    · simp only [List.length_map] at hlen ⊢
      have h1 : 1 ≤ run.length := List.length_pos.mpr hne
      omega
    · intro v hv
      obtain ⟨w, hw, rfl⟩ := List.mem_map.mp hv
      have := hmem w hw
      linarith

theorem maxClusterIntegral_cases (t : List ℝ) (thresh : ℝ) :
    maxClusterIntegral t thresh = 0 ∨ 0 < maxClusterIntegral t thresh := by
  rw [maxClusterIntegral]
  by_cases h : suprathresholdRuns t thresh = []
  · left; rw [if_pos h]
  · right
    rw [if_neg h]
    have hmapne : (suprathresholdRuns t thresh).map
        (fun r => cluster_integral (t.map (fun v => |v|)) thresh r) ≠ [] :=
      mem_map_ne_nil h
    obtain ⟨r, hr, heq⟩ := List.mem_map.mp (npMax_mem hmapne)
    have hrs := boolRuns_sound _ r hr
    have hpos : 0 < cluster_integral (t.map (fun v => |v|)) thresh r := by
      apply cluster_integral_pos _ _ _ hrs.1
      intro j hj
      obtain ⟨hjlen, hjget⟩ := hrs.2 j hj
      have hjt : j < t.length := by simpa using hjlen
      have hmask : (t.map (fun v => decide (|v| > thresh))).getD j false =
          decide (|t[j]| > thresh) := by
        rw [List.getD_eq_getElem _ _ hjlen, List.getElem_map]
      rw [hmask] at hjget
      have habs : thresh < |t[j]| := of_decide_eq_true hjget
      have : (t.map (fun v => |v|)).getD j 0 = |t[j]| := by
        rw [List.getD_eq_getElem _ _ (by simpa using hjt), List.getElem_map]
      rw [this]
      exact habs
    have hle : cluster_integral (t.map (fun v => |v|)) thresh r ≤
        npMax ((suprathresholdRuns t thresh).map
          (fun r => cluster_integral (t.map (fun v => |v|)) thresh r)) :=
      le_npMax (List.mem_map_of_mem _ hr)
    linarith

theorem maxClusterIntegral_nonneg (t : List ℝ) (thresh : ℝ) :
    0 ≤ maxClusterIntegral t thresh := by
  rcases maxClusterIntegral_cases t thresh with h | h
  · rw [h]
  · linarith

theorem npPercentile_spec (a : List ℝ) (q : ℝ) :
    npPercentile a q =
      (List.insertionSort (fun u v => u ≤ v) a).getD ⌊q / 100 * ((a.length : ℝ) - 1)⌋₊ 0 +
      (q / 100 * ((a.length : ℝ) - 1) - ⌊q / 100 * ((a.length : ℝ) - 1)⌋₊) *
        ((List.insertionSort (fun u v => u ≤ v) a).getD
            (min (⌊q / 100 * ((a.length : ℝ) - 1)⌋₊ + 1) (a.length - 1)) 0 -
         (List.insertionSort (fun u v => u ≤ v) a).getD ⌊q / 100 * ((a.length : ℝ) - 1)⌋₊ 0) :=
  rfl

theorem sorted_getD_mono {s : List ℝ} (hs : s.Sorted (fun u v => u ≤ v))
    {i j : ℕ} (hij : i ≤ j) (hj : j < s.length) : s.getD i 0 ≤ s.getD j 0 := by
  rw [List.getD_eq_getElem _ _ (lt_of_le_of_lt hij hj), List.getD_eq_getElem _ _ hj]
  rcases Nat.lt_or_ge i j with hlt | hge
  · exact List.pairwise_iff_getElem.mp hs i j (lt_of_le_of_lt hij hj) hj hlt
  · have : i = j := le_antisymm hij hge
    subst this
    exact le_refl _

theorem floor_le_sub_one {N : ℕ} (hN : 1 ≤ N) {h : ℝ} (hle : h ≤ (N : ℝ) - 1) :
    ⌊h⌋₊ ≤ N - 1 := by
  have hcast : ((N - 1 : ℕ) : ℝ) = (N : ℝ) - 1 := by
    push_cast [Nat.cast_sub hN]
    ring
  have := Nat.floor_mono (hcast ▸ hle)
  simpa using this

theorem h_range {a : List ℝ} (hne : a ≠ []) {q : ℝ} (h0 : 0 ≤ q) (h1 : q ≤ 100) :
    0 ≤ q / 100 * ((a.length : ℝ) - 1) ∧
      q / 100 * ((a.length : ℝ) - 1) ≤ (a.length : ℝ) - 1 := by
  have hN : 1 ≤ a.length := List.length_pos.mpr hne
  have hN' : (1 : ℝ) ≤ (a.length : ℝ) := by exact_mod_cast hN
  constructor
  · apply mul_nonneg (by positivity)
    linarith
  · have hq1 : q / 100 ≤ 1 := by
      linarith [div_le_one_of_le₀ h1 (by norm_num : (0:ℝ) ≤ 100)]
    nlinarith

theorem npPercentile_between (a : List ℝ) (q : ℝ) (hne : a ≠ []) (h0 : 0 ≤ q) (h1 : q ≤ 100) :
    (List.insertionSort (fun u v => u ≤ v) a).getD ⌊q / 100 * ((a.length : ℝ) - 1)⌋₊ 0 ≤
        npPercentile a q ∧
      npPercentile a q ≤ (List.insertionSort (fun u v => u ≤ v) a).getD
        (min (⌊q / 100 * ((a.length : ℝ) - 1)⌋₊ + 1) (a.length - 1)) 0 := by
  have hN : 1 ≤ a.length := List.length_pos.mpr hne
  set s := List.insertionSort (fun u v => u ≤ v) a with hs
  have hslen : s.length = a.length := (List.perm_insertionSort _ a).length_eq
  have hsorted : s.Sorted (fun u v => u ≤ v) := List.sorted_insertionSort _ a
  set h := q / 100 * ((a.length : ℝ) - 1) with hh
  obtain ⟨hh0, hhle⟩ := h_range hne h0 h1
  have hiN : ⌊h⌋₊ ≤ a.length - 1 := floor_le_sub_one hN hhle
  have hminN : min (⌊h⌋₊ + 1) (a.length - 1) < s.length := by
    rw [hslen]; omega
  have hile : ⌊h⌋₊ ≤ min (⌊h⌋₊ + 1) (a.length - 1) := by omega
  have hd : s.getD ⌊h⌋₊ 0 ≤ s.getD (min (⌊h⌋₊ + 1) (a.length - 1)) 0 :=
    sorted_getD_mono hsorted hile hminN
  have hg0 : 0 ≤ h - ⌊h⌋₊ := by
    have := Nat.floor_le hh0
    linarith
  have hg1 : h - ⌊h⌋₊ ≤ 1 := by
    have := Nat.lt_floor_add_one h
    push_cast at this ⊢
    linarith
  rw [npPercentile_spec]
  constructor
  · nlinarith
  · nlinarith

theorem npPercentile_count (a : List ℝ) (q : ℝ) (hne : a ≠ []) (h0 : 0 ≤ q) (h1 : q ≤ 100) :
    ⌊q / 100 * ((a.length : ℝ) - 1)⌋₊ + 1 ≤
      a.countP (fun v => decide (v ≤ npPercentile a q)) := by
  have hN : 1 ≤ a.length := List.length_pos.mpr hne
  set s := List.insertionSort (fun u v => u ≤ v) a with hs
  have hslen : s.length = a.length := (List.perm_insertionSort _ a).length_eq
  have hsorted : s.Sorted (fun u v => u ≤ v) := List.sorted_insertionSort _ a
  set h := q / 100 * ((a.length : ℝ) - 1) with hh
  obtain ⟨hh0, hhle⟩ := h_range hne h0 h1
  have hiN : ⌊h⌋₊ ≤ a.length - 1 := floor_le_sub_one hN hhle
  have hilt : ⌊h⌋₊ < s.length := by rw [hslen]; omega
  have hlow := (npPercentile_between a q hne h0 h1).1
  have hcount : (s.countP (fun v => decide (v ≤ npPercentile a q))) =
      a.countP (fun v => decide (v ≤ npPercentile a q)) :=
    (List.perm_insertionSort _ a).countP_eq _
  rw [← hcount]
  have hsplit : s = s.take (⌊h⌋₊ + 1) ++ s.drop (⌊h⌋₊ + 1) := (List.take_append_drop _ s).symm
  have htlen : (s.take (⌊h⌋₊ + 1)).length = ⌊h⌋₊ + 1 := by
    rw [List.length_take]
    omega
  have hall : ∀ v ∈ s.take (⌊h⌋₊ + 1), (fun v => decide (v ≤ npPercentile a q)) v = true := by
    intro v hv
    obtain ⟨j, hj, hvj⟩ := List.mem_iff_getElem.mp hv
    have hjlt : j < ⌊h⌋₊ + 1 := by
      have := hj
      rw [List.length_take] at this
      omega
    have hjs : j < s.length := by omega
    have hvs : v = s[j] := by rw [← hvj, List.getElem_take]
    subst hvs
    apply decide_eq_true
    calc s[j] = s.getD j 0 := (List.getD_eq_getElem _ _ hjs).symm
      _ ≤ s.getD ⌊h⌋₊ 0 := sorted_getD_mono hsorted (by omega) hilt
      _ ≤ npPercentile a q := hlow
  have htake : (s.take (⌊h⌋₊ + 1)).countP (fun v => decide (v ≤ npPercentile a q)) =
      ⌊h⌋₊ + 1 := by
    rw [List.countP_eq_length.mpr hall, htlen]
  calc ⌊h⌋₊ + 1 = (s.take (⌊h⌋₊ + 1)).countP (fun v => decide (v ≤ npPercentile a q)) :=
        htake.symm
    _ ≤ (s.take (⌊h⌋₊ + 1)).countP (fun v => decide (v ≤ npPercentile a q)) +
        (s.drop (⌊h⌋₊ + 1)).countP (fun v => decide (v ≤ npPercentile a q)) := by omega
    _ = s.countP (fun v => decide (v ≤ npPercentile a q)) := by
        rw [← List.countP_append]
        rw [← hsplit]

theorem npPercentile_mono (a : List ℝ) (q1 q2 : ℝ) (hne : a ≠ [])
    (h0 : 0 ≤ q2) (hq : q2 ≤ q1) (h1 : q1 ≤ 100) :
    npPercentile a q2 ≤ npPercentile a q1 := by
  have hN : 1 ≤ a.length := List.length_pos.mpr hne
  set s := List.insertionSort (fun u v => u ≤ v) a with hs
  have hslen : s.length = a.length := (List.perm_insertionSort _ a).length_eq
  have hsorted : s.Sorted (fun u v => u ≤ v) := List.sorted_insertionSort _ a
  set h1r := q1 / 100 * ((a.length : ℝ) - 1) with hh1
  set h2r := q2 / 100 * ((a.length : ℝ) - 1) with hh2
  have h20 : 0 ≤ q2 := h0
  have h10 : 0 ≤ q1 := le_trans h0 hq
  have h2le : q2 ≤ 100 := le_trans hq h1
  obtain ⟨hh10, hh1le⟩ := h_range hne h10 h1
  obtain ⟨hh20, hh2le⟩ := h_range hne h20 h2le
  have hhle : h2r ≤ h1r := by
    have hlen1 : (0:ℝ) ≤ (a.length : ℝ) - 1 := by
      have : (1 : ℝ) ≤ (a.length : ℝ) := by exact_mod_cast hN
      linarith
    apply mul_le_mul_of_nonneg_right _ hlen1
    linarith
  have hfle : ⌊h2r⌋₊ ≤ ⌊h1r⌋₊ := Nat.floor_mono hhle
  rcases Nat.lt_or_ge ⌊h2r⌋₊ ⌊h1r⌋₊ with hlt | hge
  · -- different floors: chain through the sorted array
    have h2up := (npPercentile_between a q2 hne h20 h2le).2
    have h1lo := (npPercentile_between a q1 hne h10 h1).1
    have hi1N : ⌊h1r⌋₊ ≤ a.length - 1 := floor_le_sub_one hN hh1le
    have hi1lt : ⌊h1r⌋₊ < s.length := by rw [hslen]; omega
    have hmid : s.getD (min (⌊h2r⌋₊ + 1) (a.length - 1)) 0 ≤ s.getD ⌊h1r⌋₊ 0 :=
      sorted_getD_mono hsorted (by omega) hi1lt
    calc npPercentile a q2 ≤ s.getD (min (⌊h2r⌋₊ + 1) (a.length - 1)) 0 := h2up
      _ ≤ s.getD ⌊h1r⌋₊ 0 := hmid
      _ ≤ npPercentile a q1 := h1lo
  · -- equal floors: linear interpolation on the same segment
    have heq : ⌊h2r⌋₊ = ⌊h1r⌋₊ := le_antisymm hfle hge
    have hi1N : ⌊h1r⌋₊ ≤ a.length - 1 := floor_le_sub_one hN hh1le
    have hminN : min (⌊h1r⌋₊ + 1) (a.length - 1) < s.length := by rw [hslen]; omega
    have hd : s.getD ⌊h1r⌋₊ 0 ≤ s.getD (min (⌊h1r⌋₊ + 1) (a.length - 1)) 0 :=
      sorted_getD_mono hsorted (by omega) hminN
    rw [npPercentile_spec, npPercentile_spec, ← hh1, ← hh2, ← hs, heq]
    nlinarith [hd, hhle]

/-! ### Concrete evaluation of the pipeline on two-observation, one-position inputs -/

theorem transposeT_row2 (p q : ℝ) : transposeT [[p, q]] = [[p], [q]] := by
  rw [transposeT]
  have hr : List.range ([[p, q]].headD []).length = [0, 1] := rfl
  rw [hr]
  simp

theorem transposeT_col2 (p q : ℝ) : transposeT [[p], [q]] = [[p, q]] := by
  rw [transposeT]
  have hr : List.range ([[p], [q]].headD []).length = [0] := rfl
  rw [hr]
  simp

theorem signPermute_pair (a b s0 s1 : ℝ) :
    signPermute [[a], [b]] [s0, s1] = [[a * s0], [b * s1]] := by
  rw [signPermute, transposeT_col2]
  have hmap : [[a, b]].map (fun row => List.zipWith (fun u v => u * v) row [s0, s1]) =
      [[a * s0, b * s1]] := by simp
  rw [hmap, transposeT_row2]

theorem npMean_pair (a b : ℝ) : npMean [a, b] = (a + b) / 2 := by
  rw [npMean]
  simp only [List.sum_cons, List.sum_nil, List.length_cons, List.length_nil]
  push_cast
  ring

theorem npStd1_pair (a b : ℝ) : npStd1 [a, b] = |a - b| / Real.sqrt 2 := by
  have hsqrt : Real.sqrt ((a - b) ^ 2 / 2) = |a - b| / Real.sqrt 2 := by
    rw [Real.sqrt_div (sq_nonneg _), Real.sqrt_sq_eq_abs]
  rw [npStd1, ← hsqrt]
  congr 1
  rw [npMean_pair]
  simp only [List.map_cons, List.map_nil, List.sum_cons, List.sum_nil,
    List.length_cons, List.length_nil]
  push_cast
  ring

theorem tstatField_pair (a b : ℝ) (hab : a ≠ b) :
    tstatField [[a], [b]] = [(a + b) / |a - b|] := by
  have habs : |a - b| ≠ 0 := by
    simp only [ne_eq, abs_eq_zero]
    intro h
    exact hab (by linarith)
  have hs2 : Real.sqrt 2 ≠ 0 := by positivity
  have h22 : Real.sqrt 2 * Real.sqrt 2 = 2 := Real.mul_self_sqrt (by norm_num)
  rw [tstatField, transposeT_col2]
  simp only [List.map_cons, List.map_nil, List.length_cons, List.length_nil]
  rw [npMean_pair, npStd1_pair]
  have hcast : ((0 + 1 + 1 : ℕ) : ℝ) = 2 := by norm_num
  rw [hcast]
  have hmain : (a + b) / 2 / (|a - b| / Real.sqrt 2) * Real.sqrt 2 = (a + b) / |a - b| := by
    field_simp
    linear_combination (a + b) * |a - b| * h22
  rw [hmain]

theorem yOf_X1 : yOf [[(1 : ℝ), 3]] [0] = [[1], [3]] := by
  rw [yOf, transposeT_row2]
  have h1 : broadcastSub [(1 : ℝ)] [0] = [1] := by
    rw [broadcastSub]
    norm_num
  have h3 : broadcastSub [(3 : ℝ)] [0] = [3] := by
    rw [broadcastSub]
    norm_num
  simp only [List.map_cons, List.map_nil, h1, h3]

theorem yOf_X2 : yOf [[(1 : ℝ), -3]] [0] = [[1], [-3]] := by
  rw [yOf, transposeT_row2]
  have h1 : broadcastSub [(1 : ℝ)] [0] = [1] := by
    rw [broadcastSub]
    norm_num
  have h3 : broadcastSub [(-3 : ℝ)] [0] = [-3] := by
    rw [broadcastSub]
    norm_num
  simp only [List.map_cons, List.map_nil, h1, h3]

theorem tfield_13 : tstatField [[(1 : ℝ)], [3]] = [2] := by
  rw [tstatField_pair 1 3 (by norm_num)]
  rw [show |(1 : ℝ) - 3| = 2 from by rw [abs_sub_comm, abs_of_nonneg] <;> norm_num]
  norm_num

theorem tfield_1m3 : tstatField [[(1 : ℝ)], [-3]] = [-(1/2)] := by
  rw [tstatField_pair 1 (-3) (by norm_num)]
  rw [show |(1 : ℝ) - -3| = 4 from by rw [abs_of_nonneg] <;> norm_num]
  norm_num

theorem tfield_m13 : tstatField [[(-1 : ℝ)], [3]] = [1/2] := by
  rw [tstatField_pair (-1) 3 (by norm_num)]
  rw [show |(-1 : ℝ) - 3| = 4 from by rw [abs_sub_comm, abs_of_nonneg] <;> norm_num]
  norm_num

theorem tfield_m1m3 : tstatField [[(-1 : ℝ)], [-3]] = [-2] := by
  rw [tstatField_pair (-1) (-3) (by norm_num)]
  rw [show |(-1 : ℝ) - -3| = 2 from by rw [abs_of_nonneg] <;> norm_num]
  norm_num

theorem t0Of_X1 : t0Of [[(1 : ℝ), 3]] [0] = [2] := by
  rw [t0Of, yOf_X1, tfield_13]

theorem spX1_00 : signPermute [[(1:ℝ)], [3]] (toSigns [0, 0]) = [[1], [3]] := by
  rw [show toSigns [0, 0] = [(1:ℝ), 1] from by norm_num [toSigns], signPermute_pair]
  norm_num

theorem spX1_01 : signPermute [[(1:ℝ)], [3]] (toSigns [0, 1]) = [[1], [-3]] := by
  rw [show toSigns [0, 1] = [(1:ℝ), -1] from by norm_num [toSigns], signPermute_pair]
  norm_num

theorem spX1_10 : signPermute [[(1:ℝ)], [3]] (toSigns [1, 0]) = [[-1], [3]] := by
  rw [show toSigns [1, 0] = [(-1:ℝ), 1] from by norm_num [toSigns], signPermute_pair]
  norm_num

theorem spX1_11 : signPermute [[(1:ℝ)], [3]] (toSigns [1, 1]) = [[-1], [-3]] := by
  rw [show toSigns [1, 1] = [(-1:ℝ), -1] from by norm_num [toSigns], signPermute_pair]
  norm_num

theorem spX2_00 : signPermute [[(1:ℝ)], [-3]] (toSigns [0, 0]) = [[1], [-3]] := by
  rw [show toSigns [0, 0] = [(1:ℝ), 1] from by norm_num [toSigns], signPermute_pair]
  norm_num

theorem spX2_01 : signPermute [[(1:ℝ)], [-3]] (toSigns [0, 1]) = [[1], [3]] := by
  rw [show toSigns [0, 1] = [(1:ℝ), -1] from by norm_num [toSigns], signPermute_pair]
  norm_num

theorem spX2_10 : signPermute [[(1:ℝ)], [-3]] (toSigns [1, 0]) = [[-1], [-3]] := by
  rw [show toSigns [1, 0] = [(-1:ℝ), 1] from by norm_num [toSigns], signPermute_pair]
  norm_num

theorem spX2_11 : signPermute [[(1:ℝ)], [-3]] (toSigns [1, 1]) = [[-1], [3]] := by
  rw [show toSigns [1, 1] = [(-1:ℝ), -1] from by norm_num [toSigns], signPermute_pair]
  norm_num

theorem TOf_X1 : TOf [[(1 : ℝ), 3]] [0] = [2, -(1/2), 1/2, -2] := by
  rw [TOf, yOf_X1]
  have hlab : labelsProd ([[(1:ℝ)], [3]]).length = [[0,0], [0,1], [1,0], [1,1]] := rfl
  rw [hlab]
  simp only [List.map_cons, List.map_nil]
  rw [spX1_00, spX1_01, spX1_10, spX1_11, tfield_13, tfield_1m3, tfield_m13, tfield_m1m3]
  simp [npMax]

theorem t0Of_X2 : t0Of [[(1 : ℝ), -3]] [0] = [-(1/2)] := by
  rw [t0Of, yOf_X2, tfield_1m3]

theorem TOf_X2 : TOf [[(1 : ℝ), -3]] [0] = [-(1/2), 2, -2, 1/2] := by
  rw [TOf, yOf_X2]
  have hlab : labelsProd ([[(1:ℝ)], [-3]]).length = [[0,0], [0,1], [1,0], [1,1]] := rfl
  rw [hlab]
  simp only [List.map_cons, List.map_nil]
  rw [spX2_00, spX2_01, spX2_10, spX2_11, tfield_1m3, tfield_13, tfield_m1m3, tfield_m13]
  simp [npMax]

theorem insort_TX1 :
    List.insertionSort (fun u v => u ≤ v) [(2:ℝ), -(1/2), 1/2, -2] = [-2, -(1/2), 1/2, 2] := by
  norm_num [List.insertionSort, List.orderedInsert]

theorem insort_TX2 :
    List.insertionSort (fun u v => u ≤ v) [-(1/2 : ℝ), 2, -2, 1/2] = [-2, -(1/2), 1/2, 2] := by
  norm_num [List.insertionSort, List.orderedInsert]

theorem perc_sorted_95 : npPercentile [(2:ℝ), -(1/2), 1/2, -2] 95 = 71/40 := by
  rw [npPercentile_spec, insort_TX1]
  have hq : (95:ℝ) / 100 * ((([(2:ℝ), -(1/2), 1/2, -2]).length : ℝ) - 1) = 57/20 := by
    norm_num
  rw [hq]
  have hfl : ⌊(57/20 : ℝ)⌋₊ = 2 := by
    rw [Nat.floor_eq_iff] <;> norm_num
  rw [hfl]
  norm_num [List.getD]

theorem tCritOf_X1 : tCritOf [[(1 : ℝ), 3]] [0] (1/20) = 71/40 := by
  rw [tCritOf, TOf_X1, show (100:ℝ) * (1 - 1/20) = 95 from by norm_num, perc_sorted_95]

theorem perc_sorted_95_X2 : npPercentile [-(1/2 : ℝ), 2, -2, 1/2] 95 = 71/40 := by
  rw [npPercentile_spec, insort_TX2]
  have hq : (95:ℝ) / 100 * ((([-(1/2 : ℝ), 2, -2, 1/2]).length : ℝ) - 1) = 57/20 := by
    norm_num
  rw [hq]
  have hfl : ⌊(57/20 : ℝ)⌋₊ = 2 := by
    rw [Nat.floor_eq_iff] <;> norm_num
  rw [hfl]
  norm_num [List.getD]

theorem tCritOf_X2 : tCritOf [[(1 : ℝ), -3]] [0] (1/20) = 71/40 := by
  rw [tCritOf, TOf_X2, show (100:ℝ) * (1 - 1/20) = 95 from by norm_num, perc_sorted_95_X2]

theorem perc_sorted_5 : npPercentile [(2:ℝ), -(1/2), 1/2, -2] 5 = -(71/40) := by
  rw [npPercentile_spec, insort_TX1]
  have hq : (5:ℝ) / 100 * ((([(2:ℝ), -(1/2), 1/2, -2]).length : ℝ) - 1) = 3/20 := by
    norm_num
  rw [hq]
  have hfl : ⌊(3/20 : ℝ)⌋₊ = 0 := by
    rw [Nat.floor_eq_iff] <;> norm_num
  rw [hfl]
  norm_num [List.getD]

theorem tCritOf_X1_large_alpha : tCritOf [[(1 : ℝ), 3]] [0] (19/20) = -(71/40) := by
  rw [tCritOf, TOf_X1, show (100:ℝ) * (1 - 19/20) = 5 from by norm_num, perc_sorted_5]

theorem runs_2 : suprathresholdRuns [(2:ℝ)] (71/40) = [[0]] := by
  have h2 : |(2:ℝ)| > (71/40 : ℝ) := by
    rw [abs_of_nonneg] <;> norm_num
  have hmask : [(2:ℝ)].map (fun v => decide (|v| > (71/40:ℝ))) = [true] := by
    simp only [List.map_cons, List.map_nil]
    rw [decide_eq_true h2]
  rw [suprathresholdRuns, hmask]
  rfl

theorem runs_m2 : suprathresholdRuns [(-2:ℝ)] (71/40) = [[0]] := by
  have h2 : |(-2:ℝ)| > (71/40 : ℝ) := by
    rw [abs_of_nonpos] <;> norm_num
  have hmask : [(-2:ℝ)].map (fun v => decide (|v| > (71/40:ℝ))) = [true] := by
    simp only [List.map_cons, List.map_nil]
    rw [decide_eq_true h2]
  rw [suprathresholdRuns, hmask]
  rfl

theorem runs_half : suprathresholdRuns [(1/2:ℝ)] (71/40) = [] := by
  have h2 : ¬(|(1/2:ℝ)| > (71/40 : ℝ)) := by
    rw [abs_of_nonneg] <;> norm_num
  have hmask : [(1/2:ℝ)].map (fun v => decide (|v| > (71/40:ℝ))) = [false] := by
    simp only [List.map_cons, List.map_nil]
    rw [decide_eq_false h2]
  rw [suprathresholdRuns, hmask]
  rfl

theorem runs_mhalf : suprathresholdRuns [-(1/2:ℝ)] (71/40) = [] := by
  have h2 : ¬(|-(1/2:ℝ)| > (71/40 : ℝ)) := by
    rw [abs_of_nonpos] <;> norm_num
  have hmask : [-(1/2:ℝ)].map (fun v => decide (|v| > (71/40:ℝ))) = [false] := by
    simp only [List.map_cons, List.map_nil]
    rw [decide_eq_false h2]
  rw [suprathresholdRuns, hmask]
  rfl

theorem map_abs_2 : List.map (fun v => |v|) [(2:ℝ)] = [2] := by
  simp only [List.map_cons, List.map_nil]
  rw [abs_of_nonneg (by norm_num : (0:ℝ) ≤ 2)]

theorem map_abs_m2 : List.map (fun v => |v|) [(-2:ℝ)] = [2] := by
  simp only [List.map_cons, List.map_nil]
  rw [abs_of_nonpos (by norm_num : (-2:ℝ) ≤ 0)]
  norm_num

theorem ci_pos : cluster_integral [(2:ℝ)] (71/40) [0] = 9/40 := by
  rw [cluster_integral]
  norm_num [List.getD]

theorem mci_2 : maxClusterIntegral [(2:ℝ)] (71/40) = 9/40 := by
  rw [maxClusterIntegral, runs_2, if_neg (by simp), map_abs_2]
  simp only [List.map_cons, List.map_nil]
  rw [ci_pos]
  simp [npMax]

theorem mci_m2 : maxClusterIntegral [(-2:ℝ)] (71/40) = 9/40 := by
  rw [maxClusterIntegral, runs_m2, if_neg (by simp), map_abs_m2]
  simp only [List.map_cons, List.map_nil]
  rw [ci_pos]
  simp [npMax]

theorem mci_half : maxClusterIntegral [(1/2:ℝ)] (71/40) = 0 := by
  rw [maxClusterIntegral, runs_half, if_pos rfl]

theorem mci_mhalf : maxClusterIntegral [-(1/2:ℝ)] (71/40) = 0 := by
  rw [maxClusterIntegral, runs_mhalf, if_pos rfl]

theorem MOf_X1 : MOf [[(1 : ℝ), 3]] [0] (1/20) = [9/40, 0, 0, 9/40] := by
  rw [MOf, yOf_X1, tCritOf_X1]
  have hlab : labelsProd ([[(1:ℝ)], [3]]).length = [[0,0], [0,1], [1,0], [1,1]] := rfl
  rw [hlab]
  simp only [List.map_cons, List.map_nil]
  rw [spX1_00, spX1_01, spX1_10, spX1_11, tfield_13, tfield_1m3, tfield_m13, tfield_m1m3]
  rw [mci_2, mci_mhalf, mci_half, mci_m2]

theorem clusters0Of_X1 : clusters0Of [[(1 : ℝ), 3]] [0] (1/20) = [[0]] := by
  rw [clusters0Of, t0Of_X1, tCritOf_X1, runs_2]

theorem m0Of_X1 : m0Of [[(1 : ℝ), 3]] [0] (1/20) = [9/40] := by
  rw [m0Of, clusters0Of_X1, t0Of_X1, tCritOf_X1, map_abs_2]
  simp only [List.map_cons, List.map_nil]
  rw [ci_pos]

theorem pOf_X1 : pOf [[(1 : ℝ), 3]] [0] (1/20) = some [1/4] := by
  rw [pOf, if_neg (by rw [clusters0Of_X1]; simp)]
  rw [m0Of_X1, MOf_X1]
  have hcount : List.countP (fun v => decide ((9/40 : ℝ) < v)) [9/40, 0, 0, 9/40] = 0 := by
    have h1 : ¬((9/40 : ℝ) < 9/40) := by norm_num
    have h2 : ¬((9/40 : ℝ) < 0) := by norm_num
    simp [List.countP, List.countP.go, h1, h2]
  simp only [List.map_cons, List.map_nil, hcount]
  norm_num

theorem clusters0Of_X2 : clusters0Of [[(1 : ℝ), -3]] [0] (1/20) = [] := by
  rw [clusters0Of, t0Of_X2, tCritOf_X2, runs_mhalf]

theorem pOf_X2 : pOf [[(1 : ℝ), -3]] [0] (1/20) = none := by
  rw [pOf, if_pos clusters0Of_X2]

/-! ### Shape lemmas for rectangular inputs -/

theorem TOf_ne_nil (x : List (List ℝ)) (mu : List ℝ) : TOf x mu ≠ [] := by
  rw [TOf]
  exact mem_map_ne_nil (labelsProd_ne_nil _)

theorem headD_length_of_rect {x : List (List ℝ)} {m n : ℕ} (hxm : x.length = m)
    (hrect : ∀ r ∈ x, r.length = n) (hm : 1 ≤ m) : (x.headD []).length = n := by
  cases x with
  | nil => rw [← hxm] at hm; simp at hm
  | cons r t => exact hrect r (List.mem_cons_self r t)

theorem yOf_length {x : List (List ℝ)} {mu : List ℝ} {m n : ℕ} (hxm : x.length = m)
    (hrect : ∀ r ∈ x, r.length = n) (hm : 1 ≤ m) : (yOf x mu).length = n := by
  rw [yOf, List.length_map, transposeT_length, headD_length_of_rect hxm hrect hm]

theorem headD_eq_getElem {α : Type} (l : List (List α)) (h : 0 < l.length) :
    l.headD [] = l[0] := by
  cases l with
  | nil => simp at h
  | cons r t => rfl

theorem yOf_getElem {x : List (List ℝ)} {mu : List ℝ} {m n : ℕ} (hxm : x.length = m)
    (hrect : ∀ r ∈ x, r.length = n) (hmu : mu.length = m) (hm : 1 ≤ m)
    {j : ℕ} (hj : j < n) (hjy : j < (yOf x mu).length) :
    (yOf x mu)[j] =
      List.zipWith (fun a b => a - b) (x.map (fun r => r.getD j 0)) mu := by
  have hj2 : j < (x.headD []).length := by
    rw [headD_length_of_rect hxm hrect hm]
    exact hj
  have hjt : j < (transposeT x).length := by
    rw [transposeT_length]
    exact hj2
  have hjm : j < (List.map (fun row => broadcastSub row mu) (transposeT x)).length := by
    rw [List.length_map]
    exact hjt
  show (List.map (fun row => broadcastSub row mu) (transposeT x))[j] = _
  rw [List.getElem_map]
  rw [transposeT_getElem x j hjt]
  rw [broadcastSub, if_pos]
  rw [List.length_map, hxm, hmu]

theorem yOf_row_length {x : List (List ℝ)} {mu : List ℝ} {m n : ℕ} (hxm : x.length = m)
    (hrect : ∀ r ∈ x, r.length = n) (hmu : mu.length = m) (hm : 1 ≤ m)
    {j : ℕ} (hj : j < n) (hjy : j < (yOf x mu).length) :
    ((yOf x mu)[j]).length = m := by
  rw [yOf_getElem hxm hrect hmu hm hj hjy, List.length_zipWith, List.length_map, hxm, hmu]
  omega

theorem col_of_yOf {x : List (List ℝ)} {mu : List ℝ} {m n : ℕ} (hxm : x.length = m)
    (hrect : ∀ r ∈ x, r.length = n) (hmu : mu.length = m) (hm : 1 ≤ m)
    {i : ℕ} (hi : i < m) :
    (yOf x mu).map (fun r => r.getD i 0) =
      (x.getD i []).map (fun v => v - mu.getD i 0) := by
  have hxi : i < x.length := by omega
  have hgd : x.getD i [] = x[i] := List.getD_eq_getElem x [] hxi
  have hxilen : (x[i]).length = n := hrect _ (List.getElem_mem hxi)
  apply List.ext_getElem
  · rw [List.length_map, yOf_length hxm hrect hm, List.length_map, hgd, hxilen]
  · intro j h1 h2
    have hjn : j < n := by
      rw [List.length_map, yOf_length hxm hrect hm] at h1
      exact h1
    simp only [List.getElem_map]
    have hyj : j < (yOf x mu).length := by rw [yOf_length hxm hrect hm]; exact hjn
    rw [yOf_getElem hxm hrect hmu hm hjn hyj]
    have hml : i < (x.map (fun r => r.getD j 0)).length := by
      rw [List.length_map]
      omega
    have hmui : i < mu.length := by omega
    have hzl : i < (List.zipWith (fun a b => a - b) (x.map (fun r => r.getD j 0)) mu).length := by
      rw [List.length_zipWith, List.length_map]
      omega
    rw [List.getD_eq_getElem _ _ hzl, List.getElem_zipWith]
    simp only [List.getElem_map]
    congr 1
    · have hb : j < (x[i]).length := by rw [hxilen]; exact hjn
      rw [List.getD_eq_getElem _ _ hb]
      exact List.getElem_of_eq hgd.symm hb
    · exact (List.getD_eq_getElem mu 0 hmui).symm

theorem map_abs_half : List.map (fun v => |v|) [(1/2:ℝ)] = [1/2] := by
  simp only [List.map_cons, List.map_nil]
  rw [abs_of_nonneg (by norm_num : (0:ℝ) ≤ 1/2)]

theorem map_abs_mhalf : List.map (fun v => |v|) [-(1/2:ℝ)] = [1/2] := by
  simp only [List.map_cons, List.map_nil]
  rw [abs_of_nonpos (by norm_num : (-(1/2):ℝ) ≤ 0)]
  norm_num

theorem TOfSpecAbs_X1 : TOfSpecAbs [[(1 : ℝ), 3]] [0] = [2, 1/2, 1/2, 2] := by
  rw [TOfSpecAbs, yOf_X1]
  have hlab : labelsProd ([[(1:ℝ)], [3]]).length = [[0,0], [0,1], [1,0], [1,1]] := rfl
  rw [hlab]
  simp only [List.map_cons, List.map_nil]
  rw [spX1_00, spX1_01, spX1_10, spX1_11, tfield_13, tfield_1m3, tfield_m13, tfield_m1m3]
  rw [map_abs_2, map_abs_mhalf, map_abs_half, map_abs_m2]
  simp [npMax]

/-! ### Claim theorems -/

/-- Claim C1, counterexample: on the observation set `[[1, 3]]` (one domain
position, two observations) with datum `[0]`, the primary distribution the
code builds (`t.max()`, the signed maximum) differs from the distribution
described by the specification (the maximum absolute value): the code records
`-1/2` and `-2` where the specification's words demand `1/2` and `2`. -/
theorem claim_C1_counterexample :
    TOf [[(1 : ℝ), 3]] [0] ≠ TOfSpecAbs [[(1 : ℝ), 3]] [0] := by
  rw [TOf_X1, TOfSpecAbs_X1]
  intro h
  have := List.head_eq_of_cons_eq (List.tail_eq_of_cons_eq h)
  norm_num at this

/-- Claim C1, amended: for every relabeling enumerated while building the
permutation distributions, `ttest_nonparametric` records into the primary
distribution the signed maximum of the sign-permuted statistic field (its
largest member, `t.max()`), not the maximum absolute value. -/
theorem claim_C1_amended (x : List (List ℝ)) (mu : List ℝ) :
    ∀ L ∈ labelsProd (yOf x mu).length,
      npMax (tstatField (signPermute (yOf x mu) (toSigns L))) ∈ TOf x mu ∧
      (tstatField (signPermute (yOf x mu) (toSigns L)) ≠ [] →
        npMax (tstatField (signPermute (yOf x mu) (toSigns L))) ∈
            tstatField (signPermute (yOf x mu) (toSigns L)) ∧
          ∀ v ∈ tstatField (signPermute (yOf x mu) (toSigns L)),
            v ≤ npMax (tstatField (signPermute (yOf x mu) (toSigns L)))) := by
  intro L hL
  refine ⟨?_, fun hne => ⟨npMax_mem hne, fun v hv => le_npMax hv⟩⟩
  rw [TOf]
  exact List.mem_map_of_mem _ hL

/-- Witness for the amended claim C1 at the relabeling `[0, 1]` of the input
`[[1, 3]]`, `[0]`: the recorded member is the signed maximum `-1/2` (whereas
the maximum absolute value over that permuted field is `1/2`). -/
theorem claim_C1_amended_witness :
    npMax (tstatField (signPermute (yOf [[(1:ℝ), 3]] [0]) (toSigns [0, 1]))) ∈
        TOf [[(1:ℝ), 3]] [0] ∧
      (-(1/2) : ℝ) ∈ TOf [[(1:ℝ), 3]] [0] := by
  have hmem : ([0, 1] : List ℕ) ∈ labelsProd (yOf [[(1:ℝ), 3]] [0]).length := by
    rw [yOf_X1]
    have hlab : labelsProd ([[(1:ℝ)], [3]]).length = [[0,0], [0,1], [1,0], [1,1]] := rfl
    rw [hlab]
    simp
  have h := claim_C1_amended [[(1:ℝ), 3]] [0] [0, 1] hmem
  refine ⟨h.1, ?_⟩
  have hval : npMax (tstatField (signPermute (yOf [[(1:ℝ), 3]] [0]) (toSigns [0, 1]))) =
      (-(1/2) : ℝ) := by
    rw [yOf_X1, spX1_01, tfield_1m3]
    simp [npMax]
  rw [← hval]
  exact h.1

/-- Claim C3: `cluster_integral` returns `(statistic at the position) - threshold`
on a single-position run, and the unit-spacing trapezoidal integral of
`(statistic - threshold)` on a run of two or more positions; on the field
`[0, 5, 6, 0, 7, 0]` with threshold `4` the detected clusters are the position
runs `[1, 2]` and `[4]` with integrals `3/2` and `3`. -/
theorem claim_C3 :
    (∀ (z : List ℝ) (thresh : ℝ) (i : ℕ),
        cluster_integral z thresh [i] = z.getD i 0 - thresh) ∧
    (∀ (z : List ℝ) (thresh : ℝ) (run : List ℕ), 2 ≤ run.length →
        cluster_integral z thresh run =
          ∑ k in Finset.range (run.length - 1),
            ((z.getD (run.getD k 0) 0 - thresh) +
              (z.getD (run.getD (k + 1) 0) 0 - thresh)) / 2) ∧
    suprathresholdRuns [(0:ℝ), 5, 6, 0, 7, 0] 4 = [[1, 2], [4]] ∧
    cluster_integral [(0:ℝ), 5, 6, 0, 7, 0] 4 [1, 2] = 3/2 ∧
    cluster_integral [(0:ℝ), 5, 6, 0, 7, 0] 4 [4] = 3 := by
  refine ⟨?_, ?_, ?_, ?_, ?_⟩
  · intro z thresh i
    simp [cluster_integral]
  · intro z thresh run h2
    simp only [cluster_integral]
    rw [if_neg (by rw [List.length_map]; omega)]
    rw [npTrapz_eq_sum]
    rw [List.length_map, List.length_map]
    apply Finset.sum_congr rfl
    intro k hk
    have hk1 : k < run.length - 1 := Finset.mem_range.mp hk
    have hka : k < run.length := by omega
    have hkb : k + 1 < run.length := by omega
    have e : ∀ (j : ℕ), j < run.length →
        ((run.map (fun j => z.getD j 0)).map (fun v => v - thresh)).getD j 0 =
          z.getD (run.getD j 0) 0 - thresh := by
      intro j hj
      have hj1 : j < ((run.map (fun j => z.getD j 0)).map (fun v => v - thresh)).length := by
        rw [List.length_map, List.length_map]
        exact hj
      rw [List.getD_eq_getElem _ _ hj1]
      simp only [List.getElem_map]
      rw [List.getD_eq_getElem run 0 hj]
    rw [e k hka, e (k + 1) hkb]
  · have h0 : ¬(|(0:ℝ)| > 4) := by rw [abs_of_nonneg] <;> norm_num
    have h5 : |(5:ℝ)| > 4 := by rw [abs_of_nonneg] <;> norm_num
    have h6 : |(6:ℝ)| > 4 := by rw [abs_of_nonneg] <;> norm_num
    have h7 : |(7:ℝ)| > 4 := by rw [abs_of_nonneg] <;> norm_num
    have hmask : [(0:ℝ), 5, 6, 0, 7, 0].map (fun v => decide (|v| > (4:ℝ))) =
        [false, true, true, false, true, false] := by
      simp only [List.map_cons, List.map_nil]
      rw [decide_eq_false h0, decide_eq_true h5, decide_eq_true h6, decide_eq_true h7]
    rw [suprathresholdRuns, hmask]
    rfl
  · simp only [cluster_integral]
    rw [if_neg (by norm_num)]
    norm_num [List.getD, npTrapz]
  · simp [cluster_integral, List.getD]
    norm_num

/-- Witness for claim C3 on the specification's single-point example
(`[0, 5, 0]`, threshold `4`, integral `1`) and on the two-point run
`[1, 2]` of `[0, 5, 6, 0]` (trapezoidal integral `3/2`). -/
theorem claim_C3_witness :
    cluster_integral [(0:ℝ), 5, 0] 4 [1] = 1 ∧
      cluster_integral [(0:ℝ), 5, 6, 0] 4 [1, 2] = 3/2 := by
  constructor
  · rw [claim_C3.1 [(0:ℝ), 5, 0] 4 1]
    norm_num [List.getD]
  · rw [claim_C3.2.1 [(0:ℝ), 5, 6, 0] 4 [1, 2] (by norm_num)]
    rw [show ([1, 2] : List ℕ).length - 1 = 1 from rfl]
    rw [Finset.sum_range_one]
    norm_num [List.getD]

/-- Claim C9: for a fixed observation set and datum the critical threshold is
monotone non-increasing in `alpha`: with `alpha1 ≤ alpha2` (both in `[0, 1]`),
the `100*(1-alpha2)` linear-interpolation percentile of the same primary
distribution is at most the `100*(1-alpha1)` percentile. -/
theorem claim_C9 (x : List (List ℝ)) (mu : List ℝ) (alpha1 alpha2 : ℝ)
    (h0 : 0 ≤ alpha1) (h12 : alpha1 ≤ alpha2) (h1 : alpha2 ≤ 1) :
    tCritOf x mu alpha2 ≤ tCritOf x mu alpha1 := by
  rw [tCritOf, tCritOf]
  apply npPercentile_mono (TOf x mu) (100 * (1 - alpha1)) (100 * (1 - alpha2))
    (TOf_ne_nil x mu) (by linarith) (by linarith) (by linarith)

/-- Witness for claim C9: on the input `[[1, 3]]`, `[0]` the threshold at
`alpha = 1/10` is at most the threshold at `alpha = 1/20`. -/
theorem claim_C9_witness :
    tCritOf [[(1:ℝ), 3]] [0] (1/10) ≤ tCritOf [[(1:ℝ), 3]] [0] (1/20) :=
  claim_C9 [[(1:ℝ), 3]] [0] (1/20) (1/10) (by norm_num) (by norm_num) (by norm_num)

/-- Claim C10: every member of the secondary permutation distribution is
non-negative — for each relabeling it is either the sentinel `0` (no
supra-threshold cluster in the permuted field) or the maximum cluster
integral, which is positive. -/
theorem claim_C10 (x : List (List ℝ)) (mu : List ℝ) (alpha : ℝ) :
    ∀ v ∈ MOf x mu alpha, v = 0 ∨ 0 < v := by
  intro v hv
  rw [MOf] at hv
  obtain ⟨L, hL, rfl⟩ := List.mem_map.mp hv
  exact maxClusterIntegral_cases _ _

/-- Witness for claim C10 at the member `9/40` of the secondary distribution
of the input `[[1, 3]]`, `[0]`, `alpha = 1/20`. -/
theorem claim_C10_witness : (9/40 : ℝ) = 0 ∨ 0 < (9/40 : ℝ) :=
  claim_C10 [[(1:ℝ), 3]] [0] (1/20) (9/40) (by rw [MOf_X1]; simp)

/-- Claim C8, counterexample: on the input `[[1, 3]]`, `[0]` the critical
threshold at `alpha = 19/20` is negative, and at `alpha = 1/20` only `3` of
the `4` primary-distribution samples are at most the threshold while the
claim demands at least `ceil(0.95 * 2^2) = 4`. -/
theorem claim_C8_counterexample :
    tCritOf [[(1:ℝ), 3]] [0] (19/20) < 0 ∧
      (TOf [[(1:ℝ), 3]] [0]).countP
          (fun v => decide (v ≤ tCritOf [[(1:ℝ), 3]] [0] (1/20))) <
        Nat.ceil ((1 - (1/20 : ℝ)) * 2 ^ 2) := by
  constructor
  · rw [tCritOf_X1_large_alpha]
    norm_num
  · rw [TOf_X1, tCritOf_X1]
    have ha : ¬((2:ℝ) ≤ 71/40) := by norm_num
    have hb : (-(1/2):ℝ) ≤ 71/40 := by norm_num
    have hc2 : ((1/2):ℝ) ≤ 71/40 := by norm_num
    have hd : ((-2):ℝ) ≤ 71/40 := by norm_num
    have hcount : List.countP (fun v => decide (v ≤ (71/40:ℝ))) [2, -(1/2), 1/2, -2] = 3 := by
      simp only [List.countP_cons, List.countP_nil]
      rw [decide_eq_false ha, decide_eq_true hb, decide_eq_true hc2, decide_eq_true hd]
      norm_num
    rw [hcount]
    have hceil : Nat.ceil ((1 - (1/20 : ℝ)) * 2 ^ 2) = 4 := by
      rw [Nat.ceil_eq_iff (by norm_num)]
      norm_num
    rw [hceil]
    norm_num

/-- Claim C8, amended: the primary distribution has `2^n` members, and for
every `alpha` in `[0, 1]` at least `floor((1-alpha) * (2^n - 1)) + 1` of the
primary-distribution samples are at most the critical threshold.  (The
original bound `ceil((1-alpha) * 2^n)` is too strong for the
linear-interpolation percentile, and the threshold itself can be negative for
`alpha` close to `1`.) -/
theorem claim_C8_amended (x : List (List ℝ)) (mu : List ℝ) (alpha : ℝ)
    (h0 : 0 ≤ alpha) (h1 : alpha ≤ 1) :
    (TOf x mu).length = 2 ^ (yOf x mu).length ∧
      ⌊(1 - alpha) * (((TOf x mu).length : ℝ) - 1)⌋₊ + 1 ≤
        (TOf x mu).countP (fun v => decide (v ≤ tCritOf x mu alpha)) := by
  constructor
  · rw [TOf, List.length_map, length_labelsProd]
  · have h := npPercentile_count (TOf x mu) (100 * (1 - alpha)) (TOf_ne_nil x mu)
      (by linarith) (by linarith)
    have harg : 100 * (1 - alpha) / 100 * (((TOf x mu).length : ℝ) - 1) =
        (1 - alpha) * (((TOf x mu).length : ℝ) - 1) := by ring
    rw [harg] at h
    rw [tCritOf]
    exact h

/-- Witness for the amended claim C8 on the input `[[1, 3]]`, `[0]` at
`alpha = 1/20`. -/
theorem claim_C8_amended_witness :
    (TOf [[(1:ℝ), 3]] [0]).length = 2 ^ (yOf [[(1:ℝ), 3]] [0]).length ∧
      ⌊(1 - (1/20 : ℝ)) * (((TOf [[(1:ℝ), 3]] [0]).length : ℝ) - 1)⌋₊ + 1 ≤
        (TOf [[(1:ℝ), 3]] [0]).countP
          (fun v => decide (v ≤ tCritOf [[(1:ℝ), 3]] [0] (1/20))) :=
  claim_C8_amended [[(1:ℝ), 3]] [0] (1/20) (by norm_num) (by norm_num)

/-- Claim C6: when no position of the absolute original statistic field
exceeds the critical threshold, `ttest_nonparametric` returns normally with
the explicit no-significant-cluster sentinel (`p = np.nan`, modelled as
`none`): no exception, no numeric p-value list. -/
theorem claim_C6 (x : List (List ℝ)) (mu : List ℝ) (alpha : ℝ)
    (hshape : x.length = mu.length)
    (hbelow : ∀ v ∈ t0Of x mu, |v| ≤ tCritOf x mu alpha) :
    ttest_nonparametric x mu alpha =
      Except.ok ⟨t0Of x mu, tCritOf x mu alpha, none⟩ ∧
    pOf x mu alpha = none := by
  have hcl : clusters0Of x mu alpha = [] := by
    rw [clusters0Of, suprathresholdRuns, boolRuns]
    apply boolRunsGo_eq_nil
    intro b hb
    obtain ⟨v, hv, rfl⟩ := List.mem_map.mp hb
    exact decide_eq_false (not_lt.mpr (hbelow v hv))
  have hp : pOf x mu alpha = none := by
    rw [pOf, if_pos hcl]
  refine ⟨?_, hp⟩
  rw [ttest_nonparametric, if_pos (Or.inl hshape), hp]

/-- Witness for claim C6 on `[[1, -3]]`, `[0]`, `alpha = 1/20`: the statistic
field is `[-1/2]`, entirely below the threshold `71/40`, and the function
returns the no-cluster result. -/
theorem claim_C6_witness :
    ttest_nonparametric [[(1:ℝ), -3]] [0] (1/20) =
      Except.ok ⟨t0Of [[(1:ℝ), -3]] [0], tCritOf [[(1:ℝ), -3]] [0] (1/20), none⟩ ∧
    pOf [[(1:ℝ), -3]] [0] (1/20) = none := by
  apply claim_C6
  · rfl
  · intro v hv
    rw [t0Of_X2] at hv
    rw [tCritOf_X2]
    rcases List.mem_singleton.mp hv with rfl
    rw [abs_of_nonpos (by norm_num : (-(1/2) : ℝ) ≤ 0)]
    norm_num

/-- Claim C5: the exhaustive one-sample enumeration produces exactly `2^n`
relabelings — the Cartesian product of `{0, 1}` taken `n` times, mapped to
signs by `sign = 1 - 2*label` so each component is `+1` or `-1`, with the
all-positive assignment included — and the primary distribution therefore has
exactly `2^n` members. -/
theorem claim_C5 (x : List (List ℝ)) (mu : List ℝ) (m n : ℕ)
    (hxm : x.length = m) (hrect : ∀ r ∈ x, r.length = n) (hm : 1 ≤ m) :
    (yOf x mu).length = n ∧
    (labelsProd n).length = 2 ^ n ∧
    (∀ L ∈ labelsProd n, L.length = n ∧ (∀ c ∈ L, c = 0 ∨ c = 1) ∧
      ∀ s ∈ toSigns L, s = 1 ∨ s = -1) ∧
    List.replicate n 0 ∈ labelsProd n ∧
    toSigns (List.replicate n 0) = List.replicate n 1 ∧
    (TOf x mu).length = 2 ^ n := by
  have hy := @yOf_length x mu m n hxm hrect hm
  refine ⟨hy, length_labelsProd n, ?_, replicate_mem_labelsProd n,
    toSigns_replicate_zero n, ?_⟩
  · intro L hL
    exact ⟨length_of_mem_labelsProd hL, mem_of_mem_labelsProd hL,
      toSigns_mem (mem_of_mem_labelsProd hL)⟩
  · rw [TOf, List.length_map, length_labelsProd, hy]

/-- Witness for claim C5 on the specification's two-observation example
(`x` in source layout `[[1, 3], [2, 4]]`, datum `[0, 0]`): the primary
distribution has exactly `4 = 2^2` members and the all-positive labelling is
enumerated. -/
theorem claim_C5_witness :
    (TOf [[(1:ℝ), 3], [2, 4]] [0, 0]).length = 2 ^ 2 ∧
      List.replicate 2 0 ∈ labelsProd 2 := by
  have hrect : ∀ r ∈ [[(1:ℝ), 3], [2, 4]], r.length = 2 := by
    intro r hr
    rcases List.mem_cons.mp hr with rfl | hr2
    · rfl
    · rcases List.mem_singleton.mp hr2 with rfl
      rfl
  have h := claim_C5 [[(1:ℝ), 3], [2, 4]] [0, 0] 2 2 rfl hrect (by norm_num)
  exact ⟨h.2.2.2.2.2, h.2.2.2.1⟩

/-- Claim C7, counterexample: with a single observation (`n = 1 < 2`) the
function raises nothing — no `InsufficientObservationsError`, no validation
of any kind exists in the source — and returns normally (in `numpy` the
statistic field degenerates to NaN without an exception). -/
theorem claim_C7_counterexample :
    (ttest_nonparametric [[(1:ℝ)]] [0] (1/20)).isOk = true := by
  have hcond : [[(1:ℝ)]].length = [(0:ℝ)].length ∨ [(0:ℝ)].length = 1 ∨
      [[(1:ℝ)]].length = 1 := Or.inl rfl
  rw [ttest_nonparametric, if_pos hcond]
  rfl

/-- Claim C7, amended: the source performs no typed validation.  A length
mismatch between the datum and the observation rows surfaces as the untyped
`numpy` broadcasting `ValueError` raised by the first statement
`y = x.T - mu` (hence before any permutation enumeration), and fewer than
2 observations raise nothing at all. -/
theorem claim_C7_amended (x : List (List ℝ)) (mu : List ℝ) (alpha : ℝ)
    (hne : x.length ≠ mu.length) (hmu1 : mu.length ≠ 1) (hx1 : x.length ≠ 1) :
    ttest_nonparametric x mu alpha = Except.error NpError.broadcastError := by
  rw [ttest_nonparametric, if_neg]
  push_neg
  exact ⟨hne, hmu1, hx1⟩

/-- Witness for the amended claim C7: a 2-position observation array with a
3-element datum produces the broadcast error. -/
theorem claim_C7_amended_witness :
    ttest_nonparametric [[(1:ℝ), 2], [3, 4]] [0, 0, 0] (1/20) =
      Except.error NpError.broadcastError :=
  claim_C7_amended [[(1:ℝ), 2], [3, 4]] [0, 0, 0] (1/20)
    (by norm_num) (by norm_num) (by norm_num)

/-- Claim C4: when clusters of the original statistic field survive the
threshold, each reported p-value is the fraction of secondary-distribution
members strictly greater than the cluster's integral, floored at
`1 / 2^n`; hence every reported p-value is at least `1 / 2^n` and strictly
positive. -/
theorem claim_C4 (x : List (List ℝ)) (mu : List ℝ) (alpha : ℝ) (m n : ℕ)
    (hxm : x.length = m) (hrect : ∀ r ∈ x, r.length = n) (hm : 1 ≤ m)
    (hcl : clusters0Of x mu alpha ≠ []) :
    pOf x mu alpha =
      some ((m0Of x mu alpha).map (fun m0 =>
        max (((MOf x mu alpha).countP (fun v => decide (m0 < v)) : ℝ) / ((2:ℝ) ^ n))
          (1 / ((2:ℝ) ^ n)))) ∧
    (∀ ps, pOf x mu alpha = some ps → ∀ p0 ∈ ps, 1 / ((2:ℝ) ^ n) ≤ p0 ∧ 0 < p0) := by
  have hMlen : (((MOf x mu alpha).length : ℕ) : ℝ) = (2:ℝ) ^ n := by
    rw [MOf, List.length_map, length_labelsProd, yOf_length hxm hrect hm]
    push_cast
    ring
  have hmain : pOf x mu alpha =
      some ((m0Of x mu alpha).map (fun m0 =>
        max (((MOf x mu alpha).countP (fun v => decide (m0 < v)) : ℝ) / ((2:ℝ) ^ n))
          (1 / ((2:ℝ) ^ n)))) := by
    rw [pOf, if_neg hcl]
    simp only [hMlen]
  refine ⟨hmain, ?_⟩
  intro ps hps p0 hp0
  rw [hmain] at hps
  have hps2 : ps = (m0Of x mu alpha).map (fun m0 =>
      max (((MOf x mu alpha).countP (fun v => decide (m0 < v)) : ℝ) / ((2:ℝ) ^ n))
        (1 / ((2:ℝ) ^ n))) := by
    exact (Option.some.injEq _ _ ▸ hps).symm ▸ rfl
  rw [hps2] at hp0
  obtain ⟨m0, hm0, rfl⟩ := List.mem_map.mp hp0
  constructor
  · exact le_max_right _ _
  · exact lt_of_lt_of_le (by positivity) (le_max_right _ _)

/-- Witness for claim C4 on `[[1, 3]]`, `[0]`, `alpha = 1/20`: one cluster
survives and its p-value `1/4` attains the floor `1/2^2` and is positive. -/
theorem claim_C4_witness :
    pOf [[(1:ℝ), 3]] [0] (1/20) =
      some ((m0Of [[(1:ℝ), 3]] [0] (1/20)).map (fun m0 =>
        max (((MOf [[(1:ℝ), 3]] [0] (1/20)).countP (fun v => decide (m0 < v)) : ℝ) /
            ((2:ℝ) ^ 2))
          (1 / ((2:ℝ) ^ 2)))) ∧
      (1 / ((2:ℝ) ^ 2) ≤ 1/4 ∧ (0:ℝ) < 1/4) := by
  have hrect : ∀ r ∈ [[(1:ℝ), 3]], r.length = 2 := by
    intro r hr
    rcases List.mem_singleton.mp hr with rfl
    rfl
  have h := claim_C4 [[(1:ℝ), 3]] [0] (1/20) 1 2 rfl hrect (by norm_num)
    (by rw [clusters0Of_X1]; simp)
  exact ⟨h.1, h.2 [1/4] pOf_X1 (1/4) (by simp)⟩

/-- Claim C2: at every domain position the test-statistic field equals the
mean of the datum-corrected observations divided by their sample standard
deviation with Bessel's correction (divisor `n - 1`), multiplied by
`sqrt n`. -/
theorem claim_C2 (x : List (List ℝ)) (mu : List ℝ) (m n : ℕ)
    (hxm : x.length = m) (hrect : ∀ r ∈ x, r.length = n) (hmu : mu.length = m)
    (hm : 1 ≤ m) (hn : 2 ≤ n) (i : ℕ) (hi : i < m) :
    (t0Of x mu).getD i 0 =
      ((x.getD i []).map (fun v => v - mu.getD i 0)).sum / (n : ℝ) /
        Real.sqrt ((((x.getD i []).map (fun v => v - mu.getD i 0)).map
          (fun v => (v - ((x.getD i []).map (fun w => w - mu.getD i 0)).sum / (n : ℝ)) ^ 2)).sum /
          ((n : ℝ) - 1)) *
        Real.sqrt (n : ℝ) := by
  have hy := @yOf_length x mu m n hxm hrect hm
  have hn0 : 0 < (yOf x mu).length := by omega
  have hyhead : ((yOf x mu).headD []).length = m := by
    rw [headD_eq_getElem _ hn0]
    exact yOf_row_length hxm hrect hmu hm (by omega) hn0
  have hti : i < (transposeT (yOf x mu)).length := by
    rw [transposeT_length, hyhead]
    exact hi
  have htm : i < (List.map
      (fun col => npMean col / npStd1 col * Real.sqrt ((yOf x mu).length : ℝ))
      (transposeT (yOf x mu))).length := by
    rw [List.length_map]
    exact hti
  rw [t0Of]
  show (List.map (fun col => npMean col / npStd1 col * Real.sqrt ((yOf x mu).length : ℝ))
      (transposeT (yOf x mu))).getD i 0 = _
  rw [List.getD_eq_getElem _ _ htm]
  simp only [List.getElem_map]
  rw [transposeT_getElem (yOf x mu) i hti]
  rw [col_of_yOf hxm hrect hmu hm hi]
  rw [npStd1, npMean]
  have hxi : i < x.length := by omega
  have hdlen : ((x.getD i []).map (fun v => v - mu.getD i 0)).length = n := by
    rw [List.length_map, List.getD_eq_getElem x [] hxi]
    exact hrect _ (List.getElem_mem hxi)
  rw [hy, hdlen]

/-- Witness for claim C2 on the specification's example (`x` in source layout
`[[1, 3], [2, 4]]`, datum `[0, 0]`) at position `0`. -/
theorem claim_C2_witness :
    (t0Of [[(1:ℝ), 3], [2, 4]] [0, 0]).getD 0 0 =
      ([(1:ℝ), 3].map (fun v => v - 0)).sum / ((2:ℕ) : ℝ) /
        Real.sqrt ((([(1:ℝ), 3].map (fun v => v - 0)).map
          (fun v => (v - ([(1:ℝ), 3].map (fun w => w - 0)).sum / ((2:ℕ) : ℝ)) ^ 2)).sum /
          (((2:ℕ) : ℝ) - 1)) *
        Real.sqrt ((2:ℕ) : ℝ) := by
  have hrect : ∀ r ∈ [[(1:ℝ), 3], [2, 4]], r.length = 2 := by
    intro r hr
    rcases List.mem_cons.mp hr with rfl | hr2
    · rfl
    · rcases List.mem_singleton.mp hr2 with rfl
      rfl
  have h := claim_C2 [[(1:ℝ), 3], [2, 4]] [0, 0] 2 2 rfl hrect rfl
    (by norm_num) (by norm_num) 0 (by norm_num)
  have e1 : ([[(1:ℝ), 3], [2, 4]].getD 0 []) = [(1:ℝ), 3] := rfl
  have e2 : ([(0:ℝ), 0].getD 0 0) = 0 := rfl
  simp only [e1, e2] at h
  exact h

end ProbFEApy
